import Mathlib

/-!
Verification of the Viking Bio 20 burner simulator and the PIN-derivation
tool against their natural-language specification.

The state machine, the two wire encoders and the MAC/PIN utilities are
shallowly embedded from `examples/viking_bio_simulator.py` and
`tools/derive_pin.py`.  Python integers are modelled as `ℤ`, the uniform
draws of `random.random()` as `ℚ` (the thresholds `0.1` and `0.05` become
`1/10` and `1/20`), and the draws of `random.randint(a, b)` as `ℤ`
constrained to `[a, b]`.
-/

/-!
SHA-256 (FIPS 180-4), the hash `hashlib.sha256` computes in
`tools/derive_pin.py`.  Words are naturals reduced `% 2^32`; messages and
digests are lists of byte values.
-/

/-- The mutable simulation state set up in `VikingBioSimulator.__init__`. -/
structure BurnerState where
  flame_on : Bool
  fan_speed : ℤ
  temperature : ℤ
  target_temp : ℤ
  deriving DecidableEq, Repr

/-- The random draws a single `update_state` tick may consume.
`ignite` and `extinguish` model the `random.random()` calls of the two
discrete branches; the four integer fields model the `random.randint`
calls of the fan-ramp and thermal blocks.  A tick only consumes the draws
of the branches it takes. -/
structure TickDraws where
  ignite : ℚ
  extinguish : ℚ
  fanUp : ℤ
  fanVar : ℤ
  heat : ℤ
  cool : ℤ
  deriving DecidableEq, Repr

/-- The draws lie in the ranges the Python random primitives produce:
`random.random() ∈ [0,1)` and `random.randint(a,b) ∈ [a,b]`. -/
def ValidDraws (d : TickDraws) : Prop :=
  0 ≤ d.ignite ∧ d.ignite < 1 ∧ 0 ≤ d.extinguish ∧ d.extinguish < 1 ∧
  5 ≤ d.fanUp ∧ d.fanUp ≤ 15 ∧ -5 ≤ d.fanVar ∧ d.fanVar ≤ 5 ∧
  1 ≤ d.heat ∧ d.heat ≤ 3 ∧ 1 ≤ d.cool ∧ d.cool ≤ 2

instance (d : TickDraws) : Decidable (ValidDraws d) := by
  unfold ValidDraws; infer_instance

/-- Lines 71-81 of `update_state`: the ignition / extinguish
`if`/`elif` pair (Python literals `0.1` and `0.05`). -/
def discreteStep (s : BurnerState) (d : TickDraws) : BurnerState :=
  if s.flame_on = false ∧ d.ignite < mkRat 1 10 then
    { s with flame_on := true, fan_speed := 30 }
  else if s.flame_on = true ∧ d.extinguish < mkRat 1 20 then
    { s with flame_on := false, fan_speed := 0,
             temperature := max 20 (s.temperature - 10) }
  else s

/-- Lines 83-98 of `update_state`: fan ramp and thermal update, keyed on
the flame state left by the discrete step. -/
def rampStep (s : BurnerState) (d : TickDraws) : BurnerState :=
  if s.flame_on = true then
    let fs := if s.fan_speed < 80 then min 80 (s.fan_speed + d.fanUp)
              else max 70 (min 90 (s.fan_speed + d.fanVar))
    let t := if s.temperature < s.target_temp then
               min s.target_temp (s.temperature + d.heat)
             else s.temperature
    { s with fan_speed := fs, temperature := t }
  else
    if s.temperature > 20 then
      { s with temperature := max 20 (s.temperature - d.cool) }
    else s

/-- One full `VikingBioSimulator.update_state` tick. -/
def update_state (s : BurnerState) (d : TickDraws) : BurnerState :=
  rampStep (discreteStep s d) d

/-- The state built by `VikingBioSimulator.__init__`. -/
def initial_state : BurnerState :=
  { flame_on := false, fan_speed := 0, temperature := 20, target_temp := 75 }

/-- Iterate `update_state` over a list of per-tick draws. -/
def run (s : BurnerState) : List TickDraws → BurnerState
  | [] => s
  | d :: ds => run (update_state s d) ds

/-- States reachable from the initial state by ticks with valid draws. -/
def Reachable (s : BurnerState) : Prop :=
  ∃ ds : List TickDraws, (∀ d ∈ ds, ValidDraws d) ∧ run initial_state ds = s

/-- The trajectory of states visited while consuming a list of draws,
including the start state. -/
def states (s : BurnerState) : List TickDraws → List BurnerState
  | [] => [s]
  | d :: ds => s :: states (update_state s d) ds

/-- The inductive invariant of the simulation state. -/
def StateInv (s : BurnerState) : Prop :=
  0 ≤ s.fan_speed ∧ s.fan_speed ≤ 100 ∧ 20 ≤ s.temperature ∧
  s.temperature ≤ s.target_temp ∧ s.target_temp = 75 ∧
  (s.flame_on = false → s.fan_speed = 0)

/-- A concrete valid tick of draws that forces the ignition branch
(`random.random() = 0 < 0.1`) with the smallest fan and thermal draws. -/
def igniteDraw : TickDraws :=
  { ignite := 0, extinguish := 0, fanUp := 5, fanVar := 0, heat := 1, cool := 1 }

/-- `VikingBioSimulator.send_binary_packet`, lines 39-58: the 6-byte frame
handed to `self.ser.write`.  Python `b >> 8` is floor division and
`b & 0xFF` is a non-negative remainder, i.e. `Int.ediv`/`Int.emod` by 256;
`bytes([...])` fails unless every element lies in `[0, 256)`, which the
`none` branch models. -/
def send_binary_packet (s : BurnerState) : Option (List ℕ) :=
  let flags : ℤ := if s.flame_on then 1 else 0
  let temp_high : ℤ := (s.temperature / 256) % 256
  let temp_low : ℤ := s.temperature % 256
  let vals : List ℤ := [0xAA, flags, s.fan_speed, temp_high, temp_low, 0x55]
  if ∀ v ∈ vals, 0 ≤ v ∧ v < 256 then some (vals.map Int.toNat) else none

/-- Big-endian decimal digits of a natural number, fuel-based so that it
reduces inside the kernel.  `natDigits` below always supplies enough
fuel.  This models the digit sequence Python's `str`/`format` printing
produces for a non-negative `int`. -/
def natDigitsAux : ℕ → ℕ → List ℕ
  | 0, n => [n]
  | fuel + 1, n => if n < 10 then [n] else natDigitsAux fuel (n / 10) ++ [n % 10]

/-- Big-endian decimal digits of `n` (e.g. `natDigits 407 = [4, 0, 7]`). -/
def natDigits (n : ℕ) : List ℕ := natDigitsAux n n

/-- Recombine big-endian decimal digits into a number. -/
def digitsVal (l : List ℕ) : ℕ := l.foldl (fun a d => 10 * a + d) 0

/-- The ASCII character of a decimal digit. -/
def digitChar10 (d : ℕ) : Char := Char.ofNat (48 + d)

/-- Decimal rendering of a non-negative integer, as Python `str` does. -/
def natDecimal (n : ℕ) : String := ⟨(natDigits n).map digitChar10⟩

/-- Decimal rendering of an integer, as Python `str` does. -/
def intDecimal (i : ℤ) : String :=
  if i < 0 then "-" ++ natDecimal (-i).toNat else natDecimal i.toNat

/-- Value of a list of ASCII decimal-digit characters. -/
def decChars (l : List Char) : ℕ :=
  l.foldl (fun a c => 10 * a + (c.toNat - 48)) 0

/-- `str` is the unpadded base-10 numeral of the natural number `n`:
non-empty, made of ASCII digits only, recombining to `n`, and with a
leading `0` only in the one-character numeral of zero itself. -/
def NatNumeral (str : String) (n : ℕ) : Prop :=
  str.data ≠ [] ∧ (∀ c ∈ str.data, 48 ≤ c.toNat ∧ c.toNat ≤ 57) ∧
  decChars str.data = n ∧
  (∀ c, str.data.head? = some c → c = '0' → str.data.length = 1)

/-- `str` is the unpadded base-10 numeral of the integer `i`, with a
leading minus sign exactly when `i` is negative. -/
def IntNumeral (str : String) (i : ℤ) : Prop :=
  (0 ≤ i ∧ NatNumeral str i.toNat) ∨
  (i < 0 ∧ ∃ s, str = "-" ++ s ∧ NatNumeral s (-i).toNat)

/-- `VikingBioSimulator.send_text_packet`, lines 61-66: the ASCII line
handed to `self.ser.write` (the f-string interpolates `flame_val`,
`self.fan_speed` and `self.temperature` via `str`). -/
def send_text_packet (s : BurnerState) : String :=
  "F:" ++ intDecimal (if s.flame_on then 1 else 0) ++
  ",S:" ++ intDecimal s.fan_speed ++
  ",T:" ++ intDecimal s.temperature ++ "\n"

def w32 : ℕ := 4294967296

def rotr32 (x n : ℕ) : ℕ := ((x >>> n) ||| (x <<< (32 - n))) % w32

def shaCh (x y z : ℕ) : ℕ := (x &&& y) ^^^ ((x ^^^ 0xFFFFFFFF) &&& z)

def shaMaj (x y z : ℕ) : ℕ := (x &&& y) ^^^ (x &&& z) ^^^ (y &&& z)

def bsig0 (x : ℕ) : ℕ := rotr32 x 2 ^^^ rotr32 x 13 ^^^ rotr32 x 22

def bsig1 (x : ℕ) : ℕ := rotr32 x 6 ^^^ rotr32 x 11 ^^^ rotr32 x 25

def ssig0 (x : ℕ) : ℕ := rotr32 x 7 ^^^ rotr32 x 18 ^^^ (x >>> 3)

def ssig1 (x : ℕ) : ℕ := rotr32 x 17 ^^^ rotr32 x 19 ^^^ (x >>> 10)

/-- The 64 SHA-256 round constants (FIPS 180-4 section 4.2.2), written
in decimal. -/
def shaK : List ℕ :=
  [1116352408, 1899447441, 3049323471, 3921009573, 961987163,
   1508970993, 2453635748, 2870763221, 3624381080, 310598401,
   607225278, 1426881987, 1925078388, 2162078206, 2614888103,
   3248222580, 3835390401, 4022224774, 264347078, 604807628,
   770255983, 1249150122, 1555081692, 1996064986, 2554220882,
   2821834349, 2952996808, 3210313671, 3336571891, 3584528711,
   113926993, 338241895, 666307205, 773529912, 1294757372,
   1396182291, 1695183700, 1986661051, 2177026350, 2456956037,
   2730485921, 2820302411, 3259730800, 3345764771, 3516065817,
   3600352804, 4094571909, 275423344, 430227734, 506948616,
   659060556, 883997877, 958139571, 1322822218, 1537002063,
   1747873779, 1955562222, 2024104815, 2227730452, 2361852424,
   2428436474, 2756734187, 3204031479, 3329325298]

/-- The SHA-256 initial hash value (FIPS 180-4 section 5.3.3), written
in decimal. -/
def shaH0 : List ℕ :=
  [1779033703, 3144134277, 1013904242, 2773480762,
   1359893119, 2600822924, 528734635, 1541459225]

/-- The `k` big-endian bytes of `n`. -/
def beBytes (k n : ℕ) : List ℕ :=
  (List.range k).map (fun i => (n >>> (8 * (k - 1 - i))) % 256)

/-- SHA-256 padding: a `0x80` byte, zeros up to 56 mod 64, then the
bit length as 8 big-endian bytes. -/
def shaPad (msg : List ℕ) : List ℕ :=
  msg ++ [0x80] ++ List.replicate ((119 - msg.length % 64) % 64) 0 ++
    beBytes 8 (8 * msg.length)

/-- Split a list into `k` chunks of 64 bytes. -/
def chunksAux : ℕ → List ℕ → List (List ℕ)
  | 0, _ => []
  | k + 1, l => l.take 64 :: chunksAux k (l.drop 64)

/-- The 16 big-endian 32-bit words of a 64-byte block. -/
def blockWords (b : List ℕ) : List ℕ :=
  (List.range 16).map (fun i =>
    b.getD (4 * i) 0 * 16777216 + b.getD (4 * i + 1) 0 * 65536 +
    b.getD (4 * i + 2) 0 * 256 + b.getD (4 * i + 3) 0)

/-- Append the next word of the message schedule. -/
def extendStep (w : List ℕ) : List ℕ :=
  let n := w.length
  w ++ [(ssig1 (w.getD (n - 2) 0) + w.getD (n - 7) 0 +
         ssig0 (w.getD (n - 15) 0) + w.getD (n - 16) 0) % w32]

/-- The 64-word message schedule of a block. -/
def msgSchedule (b : List ℕ) : List ℕ :=
  (List.range 48).foldl (fun w _ => extendStep w) (blockWords b)

/-- One SHA-256 compression round. -/
def shaRound (st : ℕ × ℕ × ℕ × ℕ × ℕ × ℕ × ℕ × ℕ) (kw : ℕ × ℕ) :
    ℕ × ℕ × ℕ × ℕ × ℕ × ℕ × ℕ × ℕ :=
  match st, kw with
  | (a, b, c, d, e, f, g, h), (ki, wi) =>
    let t1 := (h + bsig1 e + shaCh e f g + ki + wi) % w32
    let t2 := (bsig0 a + shaMaj a b c) % w32
    ((t1 + t2) % w32, a, b, c, (d + t1) % w32, e, f, g)

/-- Compress one 64-byte block into the running hash state. -/
def processBlock (hs : List ℕ) (b : List ℕ) : List ℕ :=
  let ws := msgSchedule b
  let r := (shaK.zip ws).foldl shaRound
    (hs.getD 0 0, hs.getD 1 0, hs.getD 2 0, hs.getD 3 0,
     hs.getD 4 0, hs.getD 5 0, hs.getD 6 0, hs.getD 7 0)
  [(hs.getD 0 0 + r.1) % w32, (hs.getD 1 0 + r.2.1) % w32,
   (hs.getD 2 0 + r.2.2.1) % w32, (hs.getD 3 0 + r.2.2.2.1) % w32,
   (hs.getD 4 0 + r.2.2.2.2.1) % w32, (hs.getD 5 0 + r.2.2.2.2.2.1) % w32,
   (hs.getD 6 0 + r.2.2.2.2.2.2.1) % w32,
   (hs.getD 7 0 + r.2.2.2.2.2.2.2) % w32]

/-- The SHA-256 digest (32 bytes) of a byte string. -/
def sha256 (msg : List ℕ) : List ℕ :=
  let p := shaPad msg
  let final := (chunksAux (p.length / 64) p).foldl processBlock shaH0
  (final.map (beBytes 4)).flatten

/-- The 14-byte ASCII product salt of `tools/derive_pin.py`
(`PRODUCT_SALT = b"VIKINGBIO-2026"`). -/
def PRODUCT_SALT : List ℕ := "VIKINGBIO-2026".data.map Char.toNat

/-- `int.from_bytes(_, byteorder='big')`. -/
def beToNat (l : List ℕ) : ℕ := l.foldl (fun a b => 256 * a + b) 0

/-- Python `f"{n:08d}"`: decimal digits of `n`, left-padded with zeros to
a width of at least 8. -/
def pyFormat08 (n : ℕ) : String :=
  ⟨List.replicate (8 - (natDigits n).length) '0' ++
    (natDigits n).map digitChar10⟩

/-- `derive_pin_from_mac` of `tools/derive_pin.py`: hash the address and
the salt, take the first 4 digest bytes as a big-endian `uint32`, reduce
modulo 100000000 and format as a zero-padded 8-digit string. -/
def derive_pin_from_mac (mac : List ℕ) : String :=
  let hash := sha256 (mac ++ PRODUCT_SALT)
  let hash_value := beToNat (hash.take 4)
  let pin := hash_value % 100000000
  pyFormat08 pin

/-- ASCII hexadecimal digit, the character class `[0-9A-Fa-f]`. -/
def isHex (c : Char) : Bool :=
  decide ((48 ≤ c.toNat ∧ c.toNat ≤ 57) ∨ (65 ≤ c.toNat ∧ c.toNat ≤ 70) ∨
    (97 ≤ c.toNat ∧ c.toNat ≤ 102))

/-- Value of an ASCII hexadecimal digit. -/
def hexVal (c : Char) : ℕ :=
  if 48 ≤ c.toNat ∧ c.toNat ≤ 57 then c.toNat - 48
  else if 65 ≤ c.toNat ∧ c.toNat ≤ 70 then c.toNat - 55
  else c.toNat - 87

/-- Line 38 of `parse_mac`:
`mac_str.replace(":", "").replace("-", "").replace(" ", "")`. -/
def stripSeparators (s : String) : List Char :=
  s.data.filter (fun c => !(c == ':' || c == '-' || c == ' '))

/-- Python `re.match(r'^[0-9A-Fa-f]{12}$', s)`: twelve hex digits from
the start, then `$`, which matches at the very end of the string or just
before a single newline that ends the string. -/
def macRegexMatch (l : List Char) : Bool :=
  ((l.take 12).length == 12) && (l.take 12).all isHex &&
  (l.drop 12 == ([] : List Char) || l.drop 12 == ['\n'])

/-- ASCII whitespace, which `bytes.fromhex` skips (Python >= 3.11). -/
def isPyWhitespace (c : Char) : Bool :=
  c == ' ' || c == '\t' || c == '\n' || c == '\r' ||
  c == Char.ofNat 11 || c == Char.ofNat 12

/-- Consecutive pairs of hex digits as byte values. -/
def hexPairsToBytes : List Char → List ℕ
  | c1 :: c2 :: rest => (16 * hexVal c1 + hexVal c2) :: hexPairsToBytes rest
  | _ => []

/-- Python `bytes.fromhex` (>= 3.11): skip ASCII whitespace; the rest
must be an even number of hex digits. -/
def fromhex (l : List Char) : Option (List ℕ) :=
  let digits := l.filter (fun c => !isPyWhitespace c)
  if digits.all isHex && (digits.length % 2 == 0) then
    some (hexPairsToBytes digits)
  else none

/-- The failure modes of `parse_mac`: the explicit
`Invalid MAC address format` ValueError of the regex check, a ValueError
propagated out of `bytes.fromhex`, and the explicit length ValueError. -/
inductive MacError where
  | invalidFormat
  | fromhexFailed
  | wrongLength
  deriving DecidableEq, Repr

/-- `parse_mac` of `tools/derive_pin.py`, lines 25-50. -/
def parse_mac (s : String) : Except MacError (List ℕ) :=
  let stripped := stripSeparators s
  if macRegexMatch stripped then
    match fromhex stripped with
    | some mac_bytes =>
      if mac_bytes.length == 6 then Except.ok mac_bytes
      else Except.error MacError.wrongLength
    | none => Except.error MacError.fromhexFailed
  else Except.error MacError.invalidFormat

/-- The spec's validation condition: the separator-stripped input is
exactly 12 hexadecimal characters. -/
def TwelveHex (l : List Char) : Prop :=
  l.length = 12 ∧ ∀ c ∈ l, isHex c = true

/-- The condition the code actually enforces: 12 hexadecimal characters,
optionally followed by one trailing newline that `$` tolerates. -/
def TwelveHexOptNL (l : List Char) : Prop :=
  TwelveHex l ∨ ∃ pre, l = pre ++ ['\n'] ∧ TwelveHex pre

instance (l : List Char) : Decidable (TwelveHex l) := by
  unfold TwelveHex; infer_instance

instance {e a : Type} [DecidableEq e] [DecidableEq a] :
    DecidableEq (Except e a) := fun x y =>
  match x, y with
  | .ok u, .ok v =>
    if h : u = v then isTrue (by rw [h])
    else isFalse (by intro hc; injection hc with h2; exact h h2)
  | .error u, .error v =>
    if h : u = v then isTrue (by rw [h])
    else isFalse (by intro hc; injection hc with h2; exact h h2)
  | .ok _, .error _ => isFalse (fun hc => Except.noConfusion hc)
  | .error _, .ok _ => isFalse (fun hc => Except.noConfusion hc)

/-- The Python float literals `0.1` and `0.05` of `update_state` denote
exactly the rational thresholds used in the embedding. -/
lemma python_threshold_literals :
    ((0.1 : ℚ) = mkRat 1 10) ∧ ((0.05 : ℚ) = mkRat 1 20) := by
  constructor <;> norm_num [mkRat]

lemma update_inv {s : BurnerState} {d : TickDraws} (hs : StateInv s)
    (hd : ValidDraws d) : StateInv (update_state s d) := by
  obtain ⟨hf0, hf1, ht0, ht1, htg, hoff⟩ := hs
  obtain ⟨-, -, -, -, hu1, hu2, hv1, hv2, hh1, hh2, hc1, hc2⟩ := hd
  unfold update_state discreteStep rampStep StateInv
  split_ifs <;> simp_all <;> omega

lemma run_inv : ∀ (ds : List TickDraws) (s : BurnerState),
    (∀ d ∈ ds, ValidDraws d) → StateInv s → StateInv (run s ds)
  | [], _, _, hs => hs
  | d :: ds, s, hv, hs =>
    run_inv ds (update_state s d)
      (fun e he => hv e (List.mem_cons_of_mem d he))
      (update_inv hs (hv d (List.mem_cons_self d ds)))

lemma initial_inv : StateInv initial_state := by
  unfold StateInv initial_state; norm_num

lemma reachable_inv {s : BurnerState} (h : Reachable s) : StateInv s := by
  obtain ⟨ds, hv, rfl⟩ := h
  exact run_inv ds initial_state hv initial_inv

/-- **C2.** Every state reachable from the initial state
`{flame_on := false, fan_speed := 0, temperature := 20, target_temp := 75}`
by `update_state` ticks, under any draws the Python random primitives can
produce, satisfies `0 ≤ fan_speed ≤ 100` and `temperature ≥ 20`. -/
theorem reachable_fan_and_temp_bounds {s : BurnerState} (h : Reachable s) :
    0 ≤ s.fan_speed ∧ s.fan_speed ≤ 100 ∧ 20 ≤ s.temperature :=
  ⟨(reachable_inv h).1, (reachable_inv h).2.1, (reachable_inv h).2.2.1⟩

/-- Closed witness for C2: the initial state is reachable (empty tick
list) and satisfies the bounds. -/
theorem reachable_fan_and_temp_bounds_witness :
    0 ≤ initial_state.fan_speed ∧ initial_state.fan_speed ≤ 100 ∧
      20 ≤ initial_state.temperature :=
  reachable_fan_and_temp_bounds ⟨[], by simp, rfl⟩

/-- **C10.** In every reachable state, the fan runs only while the flame
is on: `flame_on = false` implies `fan_speed = 0`. -/
theorem reachable_flame_off_fan_zero {s : BurnerState} (h : Reachable s)
    (hf : s.flame_on = false) : s.fan_speed = 0 :=
  (reachable_inv h).2.2.2.2.2 hf

/-- Closed witness for C10 at the initial state. -/
theorem reachable_flame_off_fan_zero_witness : initial_state.fan_speed = 0 :=
  reachable_flame_off_fan_zero ⟨[], by simp, rfl⟩ rfl

/-- **C1, counterexample.**  One tick from the initial state whose
ignition draw is below 0.10 does NOT end with `fan_speed = 30` and
`temperature = 20`: with the smallest remaining draws the same tick also
runs the fan ramp and the thermal update, ending at `fan_speed = 35` and
`temperature = 21`. -/
theorem ignition_tick_cex :
    ValidDraws igniteDraw ∧ igniteDraw.ignite < mkRat 1 10 ∧
    (update_state initial_state igniteDraw).flame_on = true ∧
    (update_state initial_state igniteDraw).fan_speed = 35 ∧
    (update_state initial_state igniteDraw).temperature = 21 := by decide

/-- **C1, amended.**  One tick from the initial state whose ignition draw
is below 0.10 ignites the flame, but the fan ramp and thermal update of
the same tick then run on the just-ignited state: the tick ends with
`fan_speed = 30 + fanUp ∈ [35, 45]` and `temperature = 20 + heat ∈ [21, 23]`. -/
theorem ignition_tick (d : TickDraws) (hv : ValidDraws d)
    (hig : d.ignite < mkRat 1 10) :
    (update_state initial_state d).flame_on = true ∧
    (update_state initial_state d).fan_speed = 30 + d.fanUp ∧
    (update_state initial_state d).temperature = 20 + d.heat ∧
    35 ≤ (update_state initial_state d).fan_speed ∧
    (update_state initial_state d).fan_speed ≤ 45 ∧
    21 ≤ (update_state initial_state d).temperature ∧
    (update_state initial_state d).temperature ≤ 23 := by
  obtain ⟨-, -, -, -, hu1, hu2, -, -, hh1, hh2, -, -⟩ := hv
  unfold update_state discreteStep rampStep initial_state
  simp only [show ((false = false) ∧ d.ignite < mkRat 1 10) from ⟨rfl, hig⟩,
    if_pos, and_true]
  norm_num
  omega

/-- Closed witness for C1's amended theorem at the concrete draw
`igniteDraw`. -/
theorem ignition_tick_witness :
    ValidDraws igniteDraw ∧ igniteDraw.ignite < mkRat 1 10 ∧
    (update_state initial_state igniteDraw).flame_on = true ∧
    (update_state initial_state igniteDraw).fan_speed = 30 + igniteDraw.fanUp :=
  ⟨by decide, by decide,
    (ignition_tick igniteDraw (by decide) (by decide)).1,
    (ignition_tick igniteDraw (by decide) (by decide)).2.1⟩

/-- **C6.**  From any state with the flame on, a tick whose extinguish
draw is below 0.05 takes the extinguish branch, which sets
`flame_on = false`, `fan_speed = 0` and
`temperature = max 20 (temperature - 10)`; and at the end of that same
tick the flame is still off and the fan speed is still 0 (the fan-ramp
step only runs while the flame is on). -/
theorem extinguish_tick (s : BurnerState) (d : TickDraws)
    (hon : s.flame_on = true) (hext : d.extinguish < mkRat 1 20) :
    discreteStep s d =
      { flame_on := false, fan_speed := 0,
        temperature := max 20 (s.temperature - 10),
        target_temp := s.target_temp } ∧
    (update_state s d).flame_on = false ∧
    (update_state s d).fan_speed = 0 := by
  have hstep : discreteStep s d =
      { flame_on := false, fan_speed := 0,
        temperature := max 20 (s.temperature - 10),
        target_temp := s.target_temp } := by
    unfold discreteStep
    rw [if_neg (by simp [hon]), if_pos ⟨hon, hext⟩]
  refine ⟨hstep, ?_, ?_⟩ <;>
    · unfold update_state
      rw [hstep]
      unfold rampStep
      split <;> simp_all
      split <;> rfl

/-- Closed witness for C6 at a concrete burning state and a concrete
extinguish draw. -/
theorem extinguish_tick_witness :
    (BurnerState.flame_on ⟨true, 50, 50, 75⟩ = true) ∧
    TickDraws.extinguish ⟨mkRat 1 2, 0, 5, 0, 1, 1⟩ < mkRat 1 20 ∧
    (update_state ⟨true, 50, 50, 75⟩ ⟨mkRat 1 2, 0, 5, 0, 1, 1⟩).fan_speed = 0 :=
  ⟨by decide, by decide,
    (extinguish_tick ⟨true, 50, 50, 75⟩ ⟨mkRat 1 2, 0, 5, 0, 1, 1⟩
      (by decide) (by decide)).2.2⟩

lemma rampStep_flame (s : BurnerState) (d : TickDraws) :
    (rampStep s d).flame_on = s.flame_on := by
  unfold rampStep; split_ifs <;> rfl

lemma cool_step {s : BurnerState} {d : TickDraws} (hoff : s.flame_on = false)
    (hoff' : (update_state s d).flame_on = false) (hd : ValidDraws d)
    (ht : 20 ≤ s.temperature) :
    (update_state s d).temperature ≤ s.temperature ∧
      20 ≤ (update_state s d).temperature := by
  obtain ⟨-, -, -, -, -, -, -, -, -, -, hc1, hc2⟩ := hd
  by_cases hig : d.ignite < mkRat 1 10
  · exfalso
    have : (update_state s d).flame_on = true := by
      unfold update_state
      rw [rampStep_flame]
      unfold discreteStep
      rw [if_pos ⟨hoff, hig⟩]
    simp [this] at hoff'
  · have hds : discreteStep s d = s := by
      unfold discreteStep
      rw [if_neg (by simp [hig]), if_neg (by simp [hoff])]
    unfold update_state
    rw [hds]
    unfold rampStep
    rw [if_neg (by simp [hoff])]
    split_ifs with h <;> simp <;> omega

lemma states_head (s : BurnerState) (ds : List TickDraws) :
    ∃ t, states s ds = s :: t := by
  cases ds <;> exact ⟨_, rfl⟩

/-- **C8.**  Along any segment of ticks during which the flame stays off
(and starting at a temperature of at least 20, as every reachable state
does), the temperature is non-increasing from each tick to the next and
stays at least 20 throughout. -/
theorem cooling_segment (s : BurnerState) (ds : List TickDraws)
    (hv : ∀ d ∈ ds, ValidDraws d) (h20 : 20 ≤ s.temperature)
    (hoff : ∀ p ∈ states s ds, p.flame_on = false) :
    List.Chain' (fun a b => b.temperature ≤ a.temperature) (states s ds) ∧
    ∀ p ∈ states s ds, 20 ≤ p.temperature := by
  induction ds generalizing s with
  | nil =>
    refine ⟨by simp [states], ?_⟩
    intro p hp
    simp [states] at hp
    simpa [hp] using h20
  | cons d ds ih =>
    have hvd : ValidDraws d := hv d (List.mem_cons_self d ds)
    have hsoff : s.flame_on = false := by
      apply hoff; simp [states]
    have hs'mem : update_state s d ∈ states s (d :: ds) := by
      obtain ⟨t, htl⟩ := states_head (update_state s d) ds
      show update_state s d ∈ s :: states (update_state s d) ds
      rw [htl]; simp
    have hs'off : (update_state s d).flame_on = false := hoff _ hs'mem
    obtain ⟨hle, hge⟩ := cool_step hsoff hs'off hvd h20
    have hrest := ih (update_state s d)
      (fun e he => hv e (List.mem_cons_of_mem d he)) hge
      (fun p hp => hoff p (by
        show p ∈ s :: states (update_state s d) ds
        exact List.mem_cons_of_mem s hp))
    constructor
    · show List.Chain' _ (s :: states (update_state s d) ds)
      obtain ⟨t, htl⟩ := states_head (update_state s d) ds
      rw [htl]
      rw [htl] at hrest
      exact List.chain'_cons.mpr ⟨hle, hrest.1⟩
    · intro p hp
      rcases List.mem_cons.mp hp with h | h
      · simpa [h] using h20
      · exact hrest.2 p h

/-- Closed witness for C8: a one-tick segment from the initial state in
which the ignition draw misses, so the flame stays off. -/
theorem cooling_segment_witness :
    List.Chain'
      (fun a b : BurnerState => b.temperature ≤ a.temperature)
      (states initial_state [⟨mkRat 1 2, 0, 5, 0, 1, 1⟩]) ∧
    ∀ p ∈ states initial_state [⟨mkRat 1 2, 0, 5, 0, 1, 1⟩],
      20 ≤ p.temperature :=
  cooling_segment initial_state [⟨mkRat 1 2, 0, 5, 0, 1, 1⟩]
    (by decide) (by decide) (by decide)

lemma binary_frame_aux {s : BurnerState} (hf0 : 0 ≤ s.fan_speed)
    (hf1 : s.fan_speed ≤ 255) (ht0 : 0 ≤ s.temperature)
    (ht1 : s.temperature ≤ 65535) :
    send_binary_packet s =
      some [0xAA, if s.flame_on then 1 else 0, s.fan_speed.toNat,
            (s.temperature / 256).toNat,
            (s.temperature % 256).toNat, 0x55] ∧
    256 * (s.temperature / 256).toNat +
        (s.temperature % 256).toNat = s.temperature.toNat ∧
    (s.temperature / 256).toNat < 256 ∧
    (s.temperature % 256).toNat < 256 := by
  have hq0 : 0 ≤ s.temperature / 256 := by omega
  have hq1 : s.temperature / 256 < 256 := by omega
  have hr0 : 0 ≤ s.temperature % 256 := by omega
  have hr1 : s.temperature % 256 < 256 := by omega
  have hqm : (s.temperature / 256) % 256 = s.temperature / 256 :=
    Int.emod_eq_of_lt hq0 hq1
  refine ⟨?_, by omega, by omega, by omega⟩
  unfold send_binary_packet
  rw [if_pos]
  · simp only [List.map, hqm]
    refine congrArg some ?_
    have hfl : (if s.flame_on then (1 : ℤ) else 0).toNat =
        if s.flame_on then 1 else 0 := by split <;> rfl
    simp [hfl]
  · intro v hv
    simp only [List.mem_cons, List.not_mem_nil, or_false] at hv
    rcases hv with rfl | rfl | rfl | rfl | rfl | rfl
    · norm_num
    · split <;> norm_num
    · omega
    · rw [hqm]; omega
    · omega
    · norm_num

/-- **C3.**  For every state with `0 ≤ fan_speed ≤ 100` and
`0 ≤ temperature ≤ 65535`, the binary encoder succeeds and produces
exactly 6 bytes: start sentinel `0xAA`, a flags byte equal to 1 when the
flame is on and 0 otherwise (all other bits clear), the fan speed, the
temperature as big-endian unsigned 16-bit (so `256 * byte3 + byte4`
recovers it exactly), and end sentinel `0x55`. -/
theorem binary_packet_shape (s : BurnerState) (hf0 : 0 ≤ s.fan_speed)
    (hf1 : s.fan_speed ≤ 100) (ht0 : 0 ≤ s.temperature)
    (ht1 : s.temperature ≤ 65535) :
    ∃ bs : List ℕ, send_binary_packet s = some bs ∧ bs.length = 6 ∧
      bs.getD 0 0 = 0xAA ∧
      bs.getD 1 0 = (if s.flame_on then 1 else 0) ∧
      bs.getD 2 0 = s.fan_speed.toNat ∧
      256 * bs.getD 3 0 + bs.getD 4 0 = s.temperature.toNat ∧
      bs.getD 3 0 < 256 ∧ bs.getD 4 0 < 256 ∧
      bs.getD 5 0 = 0x55 := by
  obtain ⟨henc, hdec, hq, hr⟩ := binary_frame_aux hf0 (by omega) ht0 ht1
  exact ⟨_, henc, rfl, rfl, rfl, rfl, hdec, hq, hr, rfl⟩

/-- Closed witness for C3 at the initial state. -/
theorem binary_packet_shape_witness :
    ∃ bs : List ℕ, send_binary_packet initial_state = some bs ∧
      bs.length = 6 ∧ bs.getD 0 0 = 0xAA ∧
      bs.getD 1 0 = (if initial_state.flame_on then 1 else 0) ∧
      bs.getD 2 0 = initial_state.fan_speed.toNat ∧
      256 * bs.getD 3 0 + bs.getD 4 0 = initial_state.temperature.toNat ∧
      bs.getD 3 0 < 256 ∧ bs.getD 4 0 < 256 ∧
      bs.getD 5 0 = 0x55 :=
  binary_packet_shape initial_state (by decide) (by decide) (by decide)
    (by decide)

/-- **C7.**  Every reachable state keeps `temperature ≤ target_temp = 75`,
hence far below 65536, so the 16-bit big-endian split in the binary
encoder is exact, every frame byte lies in `[0, 256)`, and the
byte-construction error branch of `bytes([...])` can never fire. -/
theorem reachable_packet_ok {s : BurnerState} (h : Reachable s) :
    s.temperature ≤ s.target_temp ∧ s.target_temp = 75 ∧
    s.temperature ≤ 65535 ∧
    ∃ bs : List ℕ, send_binary_packet s = some bs ∧ bs.length = 6 ∧
      (∀ b ∈ bs, b < 256) ∧
      256 * bs.getD 3 0 + bs.getD 4 0 = s.temperature.toNat := by
  obtain ⟨hf0, hf1, ht0, htg, h75, -⟩ := reachable_inv h
  have ht1 : s.temperature ≤ 65535 := by omega
  obtain ⟨henc, hdec, hq, hr⟩ :=
    binary_frame_aux hf0 (by omega) (by omega) ht1
  refine ⟨htg, h75, ht1, _, henc, rfl, ?_, hdec⟩
  intro b hb
  simp only [List.mem_cons, List.not_mem_nil, or_false] at hb
  rcases hb with rfl | rfl | rfl | rfl | rfl | rfl
  · norm_num
  · split <;> norm_num
  · omega
  · omega
  · omega
  · norm_num

/-- Closed witness for C7 at the (reachable) initial state. -/
theorem reachable_packet_ok_witness :
    initial_state.temperature ≤ initial_state.target_temp ∧
    initial_state.target_temp = 75 ∧ initial_state.temperature ≤ 65535 ∧
    ∃ bs : List ℕ, send_binary_packet initial_state = some bs ∧
      bs.length = 6 ∧ (∀ b ∈ bs, b < 256) ∧
      256 * bs.getD 3 0 + bs.getD 4 0 = initial_state.temperature.toNat :=
  reachable_packet_ok ⟨[], by simp, rfl⟩

lemma natDigitsAux_ne_nil (fuel n : ℕ) : natDigitsAux fuel n ≠ [] := by
  cases fuel with
  | zero => simp [natDigitsAux]
  | succ fuel =>
    unfold natDigitsAux
    split
    · simp
    · simp

lemma digitsVal_append_one (l : List ℕ) (x : ℕ) :
    digitsVal (l ++ [x]) = 10 * digitsVal l + x := by
  unfold digitsVal
  rw [List.foldl_append]
  rfl

lemma natDigitsAux_val : ∀ (fuel n : ℕ), n ≤ fuel →
    digitsVal (natDigitsAux fuel n) = n
  | 0, n, h => by
    have : n = 0 := Nat.le_zero.mp h
    subst this
    rfl
  | fuel + 1, n, h => by
    unfold natDigitsAux
    split
    · simp [digitsVal]
    · rename_i h10
      rw [digitsVal_append_one,
        natDigitsAux_val fuel (n / 10) (by omega)]
      omega

lemma natDigitsAux_lt10 : ∀ (fuel n : ℕ), n ≤ fuel →
    ∀ d ∈ natDigitsAux fuel n, d < 10
  | 0, n, h => by
    have : n = 0 := Nat.le_zero.mp h
    subst this
    simp [natDigitsAux]
  | fuel + 1, n, h => by
    unfold natDigitsAux
    split
    · rename_i h10
      simp [h10]
    · rename_i h10
      intro d hd
      rcases List.mem_append.mp hd with hl | hr
      · exact natDigitsAux_lt10 fuel (n / 10) (by omega) d hl
      · simp at hr
        omega

lemma natDigitsAux_len : ∀ (fuel n k : ℕ), n ≤ fuel → n < 10 ^ k → 1 ≤ k →
    (natDigitsAux fuel n).length ≤ k
  | 0, n, k, h, _, hk => by
    have : n = 0 := Nat.le_zero.mp h
    subst this
    simpa [natDigitsAux] using hk
  | fuel + 1, n, k, h, hpow, hk => by
    unfold natDigitsAux
    split
    · simpa using hk
    · rename_i h10
      rcases k with - | k
      · omega
      rcases k with - | k
      · exfalso
        simp at hpow
        omega
      have hdiv : n / 10 < 10 ^ (k + 1) := by
        have h100 : (0:ℕ) < 10 := by norm_num
        rw [Nat.div_lt_iff_lt_mul h100]
        calc n < 10 ^ (k + 2) := hpow
        _ = 10 ^ (k + 1) * 10 := by ring
      have := natDigitsAux_len fuel (n / 10) (k + 1) (by omega) hdiv (by omega)
      simp only [List.length_append, List.length_cons, List.length_nil]
      omega

lemma natDigitsAux_head : ∀ (fuel n : ℕ), n ≤ fuel → 1 ≤ n →
    ∀ h, (natDigitsAux fuel n).head? = some h → 1 ≤ h ∧ h < 10
  | 0, n, hle, h1, _, _ => by omega
  | fuel + 1, n, hle, h1, h, hh => by
    unfold natDigitsAux at hh
    split at hh
    · rename_i h10
      simp at hh
      omega
    · rename_i h10
      rcases he : natDigitsAux fuel (n / 10) with - | ⟨a, t⟩
      · exact absurd he (natDigitsAux_ne_nil fuel (n / 10))
      · rw [he] at hh
        simp at hh
        exact natDigitsAux_head fuel (n / 10) (by omega) (by omega) h
          (by rw [he]; simp [hh])

lemma natDigits_val (n : ℕ) : digitsVal (natDigits n) = n :=
  natDigitsAux_val n n le_rfl

lemma natDigits_lt10 (n : ℕ) : ∀ d ∈ natDigits n, d < 10 :=
  natDigitsAux_lt10 n n le_rfl

lemma natDigits_ne_nil (n : ℕ) : natDigits n ≠ [] :=
  natDigitsAux_ne_nil n n

lemma natDigits_len {n k : ℕ} (hpow : n < 10 ^ k) (hk : 1 ≤ k) :
    (natDigits n).length ≤ k :=
  natDigitsAux_len n n k le_rfl hpow hk

lemma natDigits_head {n : ℕ} (h1 : 1 ≤ n) {h : ℕ}
    (hh : (natDigits n).head? = some h) : 1 ≤ h ∧ h < 10 :=
  natDigitsAux_head n n le_rfl h1 h hh

lemma digitChar10_toNat {d : ℕ} (h : d < 10) :
    (digitChar10 d).toNat = 48 + d := by
  interval_cases d <;> decide

lemma data_append (a b : String) : (a ++ b).data = a.data ++ b.data := rfl

lemma decChars_map : ∀ (l : List ℕ) (a : ℕ), (∀ d ∈ l, d < 10) →
    List.foldl (fun a c => 10 * a + (c.toNat - 48)) a (l.map digitChar10) =
    List.foldl (fun a d => 10 * a + d) a l
  | [], _, _ => rfl
  | d :: l, a, h => by
    have hd : d < 10 := h d (List.mem_cons_self d l)
    simp only [List.map_cons, List.foldl_cons,
      digitChar10_toNat hd]
    rw [decChars_map l _ (fun e he => h e (List.mem_cons_of_mem d he))]
    congr 1
    omega

lemma natDecimal_numeral (n : ℕ) : NatNumeral (natDecimal n) n := by
  refine ⟨?_, ?_, ?_, ?_⟩
  · simpa [natDecimal] using natDigits_ne_nil n
  · intro c hc
    simp only [natDecimal, List.mem_map] at hc
    obtain ⟨d, hd, rfl⟩ := hc
    have := natDigits_lt10 n d hd
    rw [digitChar10_toNat this]
    omega
  · show decChars ((natDigits n).map digitChar10) = n
    unfold decChars
    rw [decChars_map _ _ (natDigits_lt10 n)]
    exact natDigits_val n
  · intro c hc hzero
    rcases Nat.eq_zero_or_pos n with rfl | hpos
    · rfl
    · exfalso
      simp only [natDecimal, List.head?_map] at hc
      rcases he : (natDigits n).head? with - | a
      · rw [he] at hc; simp at hc
      · rw [he] at hc
        simp at hc
        obtain ⟨h1, h10⟩ := natDigits_head hpos he
        have := digitChar10_toNat h10
        rw [← hc] at hzero
        have h48 : (48 + a) = 48 := by
          have hz : ('0' : Char).toNat = 48 := by decide
          rw [← this, hzero, hz]
        omega

lemma intDecimal_numeral (i : ℤ) : IntNumeral (intDecimal i) i := by
  unfold intDecimal
  split
  · rename_i hneg
    right
    exact ⟨hneg, natDecimal ((-i).toNat), rfl, natDecimal_numeral _⟩
  · rename_i hpos
    left
    exact ⟨by omega, natDecimal_numeral _⟩

lemma intDecimal_ascii (i : ℤ) :
    ∀ c ∈ (intDecimal i).data, c.toNat < 128 := by
  intro c hc
  unfold intDecimal at hc
  split at hc
  · rw [data_append] at hc
    rcases List.mem_append.mp hc with hm | hm
    · have : c = '-' := by simpa using hm
      subst this
      decide
    · have := (natDecimal_numeral ((-i).toNat)).2.1 c hm
      omega
  · have := (natDecimal_numeral i.toNat).2.1 c hc
    omega

/-- **C9.**  For every state, the text encoder emits exactly the ASCII
line `F:<f>,S:<s>,T:<t>` followed by a newline, where `<f>` is `1` when
the flame is on and `0` otherwise, and `<s>` and `<t>` are the fan speed
and temperature as unpadded base-10 numerals. -/
theorem text_packet_shape (s : BurnerState) :
    ∃ f sd td : String,
      send_text_packet s = "F:" ++ f ++ ",S:" ++ sd ++ ",T:" ++ td ++ "\n" ∧
      ((f = "1" ∧ s.flame_on = true) ∨ (f = "0" ∧ s.flame_on = false)) ∧
      IntNumeral sd s.fan_speed ∧ IntNumeral td s.temperature ∧
      (∀ c ∈ (send_text_packet s).data, c.toNat < 128) := by
  refine ⟨intDecimal (if s.flame_on then 1 else 0), intDecimal s.fan_speed,
    intDecimal s.temperature, rfl, ?_, intDecimal_numeral _,
    intDecimal_numeral _, ?_⟩
  · rcases hf : s.flame_on
    · right
      refine ⟨?_, rfl⟩
      simp only [hf, if_false, Bool.false_eq_true]
      decide
    · left
      refine ⟨?_, rfl⟩
      simp only [hf, if_true]
      decide
  · intro c hc
    unfold send_text_packet at hc
    simp only [data_append, List.mem_append] at hc
    rcases hc with ((((((hc | hc) | hc) | hc) | hc) | hc) | hc)
    · revert hc
      have : ∀ e ∈ ("F:").data, e.toNat < 128 := by decide
      exact this c
    · exact intDecimal_ascii _ c hc
    · revert hc
      have : ∀ e ∈ (",S:").data, e.toNat < 128 := by decide
      exact this c
    · exact intDecimal_ascii _ c hc
    · revert hc
      have : ∀ e ∈ (",T:").data, e.toNat < 128 := by decide
      exact this c
    · exact intDecimal_ascii _ c hc
    · revert hc
      have : ∀ e ∈ ("\n").data, e.toNat < 128 := by decide
      exact this c

/-- Sanity check against the FIPS 180-4 test vector for `"abc"`. -/
theorem sha256_abc_vector :
    sha256 [0x61, 0x62, 0x63] =
      [0xba, 0x78, 0x16, 0xbf, 0x8f, 0x01, 0xcf, 0xea,
       0x41, 0x41, 0x40, 0xde, 0x5d, 0xae, 0x22, 0x23,
       0xb0, 0x03, 0x61, 0xa3, 0x96, 0x17, 0x7a, 0x9c,
       0xb4, 0x10, 0xff, 0x61, 0xf2, 0x00, 0x15, 0xad] := by rfl

/-- Sanity check against the SHA-256 vector for the empty message. -/
theorem sha256_empty_vector :
    sha256 [] =
      [0xe3, 0xb0, 0xc4, 0x42, 0x98, 0xfc, 0x1c, 0x14,
       0x9a, 0xfb, 0xf4, 0xc8, 0x99, 0x6f, 0xb9, 0x24,
       0x27, 0xae, 0x41, 0xe4, 0x64, 0x9b, 0x93, 0x4c,
       0xa4, 0x95, 0x99, 0x1b, 0x78, 0x52, 0xb8, 0x55] := by rfl

/-- End-to-end sanity check: the PIN of `AA:BB:CC:DD:EE:FF`, matching the
value the documented SHA-256 algorithm produces. -/
theorem derive_pin_reference_vector :
    derive_pin_from_mac [0xAA, 0xBB, 0xCC, 0xDD, 0xEE, 0xFF] = "82474590" := by
  rfl

lemma beBytes_length (k n : ℕ) : (beBytes k n).length = k := by
  simp [beBytes]

lemma beBytes_lt (k n : ℕ) : ∀ b ∈ beBytes k n, b < 256 := by
  intro b hb
  simp only [beBytes, List.mem_map, List.mem_range] at hb
  obtain ⟨i, -, rfl⟩ := hb
  exact Nat.mod_lt _ (by norm_num)

lemma processBlock_length (hs b : List ℕ) : (processBlock hs b).length = 8 :=
  rfl

lemma foldl_processBlock_length :
    ∀ (bs : List (List ℕ)) (hs : List ℕ), hs.length = 8 →
      (List.foldl processBlock hs bs).length = 8
  | [], _, h => h
  | b :: bs, hs, _ =>
    foldl_processBlock_length bs (processBlock hs b) (processBlock_length hs b)

lemma flatten_beBytes4_length :
    ∀ l : List ℕ, ((l.map (beBytes 4)).flatten).length = 4 * l.length
  | [] => rfl
  | x :: l => by
    simp only [List.map_cons, List.flatten_cons, List.length_append,
      beBytes_length, flatten_beBytes4_length l, List.length_cons]
    ring

lemma sha256_length (msg : List ℕ) : (sha256 msg).length = 32 := by
  have he : sha256 msg =
      (((chunksAux ((shaPad msg).length / 64) (shaPad msg)).foldl
        processBlock shaH0).map (beBytes 4)).flatten := rfl
  rw [he, flatten_beBytes4_length,
    foldl_processBlock_length _ shaH0 rfl]

lemma sha256_bytes_lt (msg : List ℕ) : ∀ b ∈ sha256 msg, b < 256 := by
  intro b hb
  unfold sha256 at hb
  rw [List.mem_flatten] at hb
  obtain ⟨l, hl, hbl⟩ := hb
  rw [List.mem_map] at hl
  obtain ⟨w, -, rfl⟩ := hl
  exact beBytes_lt 4 w b hbl

lemma beToNat_aux_lt :
    ∀ (l : List ℕ) (a n : ℕ), (∀ b ∈ l, b < 256) → a < n →
      List.foldl (fun a b => 256 * a + b) a l < n * 256 ^ l.length
  | [], a, n, _, ha => by simpa using ha
  | b :: t, a, n, hl, ha => by
    have hb : b < 256 := hl b (List.mem_cons_self b t)
    have step : 256 * a + b < 256 * n := by omega
    have := beToNat_aux_lt t (256 * a + b) (256 * n)
      (fun e he => hl e (List.mem_cons_of_mem b he)) step
    calc List.foldl (fun a b => 256 * a + b) (256 * a + b) t
        < 256 * n * 256 ^ t.length := this
      _ = n * 256 ^ (b :: t).length := by
          simp [List.length_cons]
          ring

lemma beToNat_lt {l : List ℕ} (h : ∀ b ∈ l, b < 256) :
    beToNat l < 256 ^ l.length :=
  by simpa using beToNat_aux_lt l 0 1 h one_pos

lemma decChars_replicate_zero :
    ∀ m : ℕ, List.foldl (fun a c => 10 * a + (c.toNat - 48)) 0
      (List.replicate m '0') = 0
  | 0 => rfl
  | m + 1 => by
    rw [List.replicate_succ, List.foldl_cons]
    have : (10 * 0 + (('0' : Char).toNat - 48)) = 0 := by decide
    rw [this]
    exact decChars_replicate_zero m

/-- **C4.**  For every 6-byte hardware address, `derive_pin_from_mac`
hashes the address followed by the 14-byte salt `"VIKINGBIO-2026"` with
SHA-256 (a 32-byte digest), reads the first 4 digest bytes as a
big-endian unsigned 32-bit integer, and returns that value modulo
100000000 rendered as a string of exactly 8 ASCII decimal digits (so
the digit string recombines to the reduced value); identical input
always yields identical output. -/
theorem derive_pin_correct (mac : List ℕ) (h6 : mac.length = 6)
    (hb : ∀ b ∈ mac, b < 256) :
    PRODUCT_SALT.length = 14 ∧
    (sha256 (mac ++ PRODUCT_SALT)).length = 32 ∧
    beToNat ((sha256 (mac ++ PRODUCT_SALT)).take 4) < 4294967296 ∧
    derive_pin_from_mac mac =
      pyFormat08 (beToNat ((sha256 (mac ++ PRODUCT_SALT)).take 4) %
        100000000) ∧
    (derive_pin_from_mac mac).data.length = 8 ∧
    (∀ c ∈ (derive_pin_from_mac mac).data, 48 ≤ c.toNat ∧ c.toNat ≤ 57) ∧
    decChars (derive_pin_from_mac mac).data =
      beToNat ((sha256 (mac ++ PRODUCT_SALT)).take 4) % 100000000 ∧
    (∀ mac₂, mac₂ = mac → derive_pin_from_mac mac₂ = derive_pin_from_mac mac) := by
  set pin : ℕ :=
    beToNat ((sha256 (mac ++ PRODUCT_SALT)).take 4) % 100000000 with hpin
  have hlen32 : (sha256 (mac ++ PRODUCT_SALT)).length = 32 :=
    sha256_length _
  have htake : ((sha256 (mac ++ PRODUCT_SALT)).take 4).length = 4 := by
    rw [List.length_take, hlen32]
    norm_num
  have hu32 : beToNat ((sha256 (mac ++ PRODUCT_SALT)).take 4) < 4294967296 := by
    have := beToNat_lt (l := (sha256 (mac ++ PRODUCT_SALT)).take 4)
      (fun b hbm => sha256_bytes_lt _ b (List.take_subset 4 _ hbm))
    rw [htake] at this
    exact this
  have hpin8 : pin < 10 ^ 8 := by
    rw [hpin]
    exact Nat.mod_lt _ (by norm_num)
  have hdiglen : (natDigits pin).length ≤ 8 := natDigits_len hpin8 (by norm_num)
  have hdata : (derive_pin_from_mac mac).data =
      List.replicate (8 - (natDigits pin).length) '0' ++
        (natDigits pin).map digitChar10 := rfl
  refine ⟨rfl, hlen32, hu32, rfl, ?_, ?_, ?_, fun _ h => by rw [h]⟩
  · rw [hdata]
    simp only [List.length_append, List.length_replicate, List.length_map]
    omega
  · intro c hc
    rw [hdata] at hc
    rcases List.mem_append.mp hc with hm | hm
    · have : c = '0' := List.eq_of_mem_replicate hm
      subst this
      decide
    · exact (natDecimal_numeral pin).2.1 c hm
  · rw [hdata]
    unfold decChars
    rw [List.foldl_append, decChars_replicate_zero]
    exact (natDecimal_numeral pin).2.2.1

/-- Closed witness for C4 at the address `AA:BB:CC:DD:EE:FF`. -/
theorem derive_pin_correct_witness :
    ([0xAA, 0xBB, 0xCC, 0xDD, 0xEE, 0xFF] : List ℕ).length = 6 ∧
    (derive_pin_from_mac [0xAA, 0xBB, 0xCC, 0xDD, 0xEE, 0xFF]).data.length = 8 :=
  ⟨by decide,
    (derive_pin_correct [0xAA, 0xBB, 0xCC, 0xDD, 0xEE, 0xFF]
      (by decide) (by decide)).2.2.2.2.1⟩

lemma hex_not_ws {c : Char} (h : isHex c = true) : isPyWhitespace c = false := by
  simp only [isHex, decide_eq_true_eq] at h
  have h48 : 48 ≤ c.toNat := by omega
  simp only [isPyWhitespace, Bool.or_eq_false_iff, beq_eq_false_iff_ne, ne_eq]
  refine ⟨⟨⟨⟨⟨?_, ?_⟩, ?_⟩, ?_⟩, ?_⟩, ?_⟩ <;>
    · intro he
      subst he
      simp at h48

lemma hexPairsToBytes_length : ∀ l : List Char,
    (hexPairsToBytes l).length = l.length / 2
  | [] => rfl
  | [_] => by simp [hexPairsToBytes]
  | _ :: _ :: rest => by
    simp only [hexPairsToBytes, List.length_cons,
      hexPairsToBytes_length rest]
    omega

lemma macRegexMatch_parts {l : List Char} (h : macRegexMatch l = true) :
    (l.take 12).length = 12 ∧ (∀ c ∈ l.take 12, isHex c = true) ∧
    (l.drop 12 = [] ∨ l.drop 12 = ['\n']) := by
  simp only [macRegexMatch, Bool.and_eq_true, Bool.or_eq_true,
    beq_iff_eq, List.all_eq_true] at h
  exact ⟨h.1.1, h.1.2, h.2⟩

lemma filter_of_regex {l : List Char} (h : macRegexMatch l = true) :
    l.filter (fun c => !isPyWhitespace c) = l.take 12 := by
  obtain ⟨h12, hhex, hdrop⟩ := macRegexMatch_parts h
  conv_lhs => rw [← List.take_append_drop 12 l]
  rw [List.filter_append]
  have htake : (l.take 12).filter (fun c => !isPyWhitespace c) = l.take 12 :=
    List.filter_eq_self.mpr (fun c hc => by
      rw [hex_not_ws (hhex c hc)]; rfl)
  have hdfilter : (l.drop 12).filter (fun c => !isPyWhitespace c) = [] := by
    rcases hdrop with he | he <;> rw [he] <;> rfl
  rw [htake, hdfilter, List.append_nil]

lemma parse_mac_eq (s : String) :
    parse_mac s =
      if macRegexMatch (stripSeparators s) then
        Except.ok (hexPairsToBytes ((stripSeparators s).take 12))
      else Except.error MacError.invalidFormat := by
  by_cases hm : macRegexMatch (stripSeparators s) = true
  · obtain ⟨h12, hhex, -⟩ := macRegexMatch_parts hm
    have hfh : fromhex (stripSeparators s) =
        some (hexPairsToBytes ((stripSeparators s).take 12)) := by
      unfold fromhex
      rw [filter_of_regex hm]
      rw [if_pos]
      simp only [Bool.and_eq_true, List.all_eq_true, beq_iff_eq]
      exact ⟨hhex, by rw [h12]⟩
    have hlen : (hexPairsToBytes ((stripSeparators s).take 12)).length = 6 := by
      rw [hexPairsToBytes_length, h12]
    simp [parse_mac, hm, hfh, hlen]
  · rw [Bool.not_eq_true] at hm
    simp [parse_mac, hm]

lemma macRegexMatch_iff (l : List Char) :
    macRegexMatch l = true ↔ TwelveHexOptNL l := by
  constructor
  · intro h
    obtain ⟨h12, hhex, hdrop⟩ := macRegexMatch_parts h
    rcases hdrop with he | he
    · left
      have hl : l = l.take 12 := by
        conv_lhs => rw [← List.take_append_drop 12 l]
        rw [he, List.append_nil]
      refine ⟨?_, ?_⟩
      · rw [hl, h12]
      · intro c hc
        exact hhex c (by rw [← hl]; exact hc)
    · right
      refine ⟨l.take 12, ?_, h12, hhex⟩
      conv_lhs => rw [← List.take_append_drop 12 l]
      rw [he]
  · rintro (⟨h12, hhex⟩ | ⟨pre, rfl, h12, hhex⟩)
    · have ht : l.take 12 = l := List.take_of_length_le (by omega)
      have hd : l.drop 12 = [] := List.drop_eq_nil_of_le (by omega)
      simp only [macRegexMatch, ht, hd, Bool.and_eq_true, Bool.or_eq_true,
        beq_iff_eq, List.all_eq_true]
      exact ⟨⟨h12, hhex⟩, by simp⟩
    · have ht : (pre ++ ['\n']).take 12 = pre := by
        rw [← h12, List.take_left]
      have hd : (pre ++ ['\n']).drop 12 = ['\n'] := by
        rw [← h12, List.drop_left]
      simp only [macRegexMatch, ht, hd, Bool.and_eq_true, Bool.or_eq_true,
        beq_iff_eq, List.all_eq_true]
      exact ⟨⟨h12, hhex⟩, by simp⟩

/-- **C5, counterexample.**  The input `"0123456789AB\n"` strips to a
13-character list that is not exactly 12 hexadecimal characters, yet
`parse_mac` accepts it and returns the 6 bytes `01 23 45 67 89 AB`: the
`$` of `re.match(r'^[0-9A-Fa-f]{12}$', ...)` also matches just before a
trailing newline, and `bytes.fromhex` then skips that newline. -/
theorem parse_mac_cex :
    ¬ TwelveHex (stripSeparators "0123456789AB\n") ∧
    (stripSeparators "0123456789AB\n").length = 13 ∧
    parse_mac "0123456789AB\n" = Except.ok [1, 35, 69, 103, 137, 171] := by
  refine ⟨?_, by decide, by decide⟩
  rintro ⟨h12, -⟩
  revert h12
  decide

/-- **C5, amended.**  `parse_mac` fails with the invalid-address error
precisely when the separator-stripped input is neither exactly 12
hexadecimal characters nor 12 hexadecimal characters followed by one
trailing newline (which the `$` anchor tolerates); on success it returns
the 6 bytes of the 12 hex digits.  The malformed inputs `"12:34"` and
`"ZZ:ZZ:ZZ:ZZ:ZZ:ZZ"` both fail with the invalid-address error. -/
theorem parse_mac_spec (s : String) :
    (parse_mac s = Except.error MacError.invalidFormat ↔
      ¬ TwelveHexOptNL (stripSeparators s)) ∧
    (∀ bs, parse_mac s = Except.ok bs →
      bs = hexPairsToBytes ((stripSeparators s).take 12) ∧ bs.length = 6) ∧
    (TwelveHexOptNL (stripSeparators s) →
      parse_mac s = Except.ok (hexPairsToBytes ((stripSeparators s).take 12))) ∧
    parse_mac "12:34" = Except.error MacError.invalidFormat ∧
    parse_mac "ZZ:ZZ:ZZ:ZZ:ZZ:ZZ" = Except.error MacError.invalidFormat := by
  refine ⟨?_, ?_, ?_, by decide, by decide⟩
  · rw [parse_mac_eq s, ← macRegexMatch_iff]
    by_cases hm : macRegexMatch (stripSeparators s) = true
    · simp [hm]
    · rw [Bool.not_eq_true] at hm
      simp [hm]
  · intro bs hbs
    rw [parse_mac_eq s] at hbs
    by_cases hm : macRegexMatch (stripSeparators s) = true
    · rw [if_pos hm] at hbs
      injection hbs with h2
      obtain ⟨h12, -, -⟩ := macRegexMatch_parts hm
      subst h2
      exact ⟨rfl, by rw [hexPairsToBytes_length, h12]⟩
    · rw [Bool.not_eq_true] at hm
      rw [hm] at hbs
      exact absurd hbs (by simp)
  · intro hok
    rw [parse_mac_eq s, if_pos ((macRegexMatch_iff _).mpr hok)]

/-- Closed witness for C5's amended theorem at the well-formed address
`AABBCCDDEEFF`. -/
theorem parse_mac_spec_witness :
    TwelveHexOptNL (stripSeparators "AABBCCDDEEFF") ∧
    parse_mac "AABBCCDDEEFF" =
      Except.ok (hexPairsToBytes ((stripSeparators "AABBCCDDEEFF").take 12)) :=
  ⟨Or.inl (by decide),
    (parse_mac_spec "AABBCCDDEEFF").2.2.1 (Or.inl (by decide))⟩
